import Mathlib

/-!
Verification of the Thirteen Gopher server (cmd/thirteen/sys_unix.go).

This file gives a shallow embedding of the request pipeline of the server:
request reading (`readRequest`), request splitting (`splitRequest`), path
normalization (`normalizePath`), path resolution with path-info splitting
(`splitScriptPathAndPathInfo`, `splitPath`), the file metadata gate
(`getStats`), the CGI invocation plan (`runCGIPlan`) and the connection
admission semaphore (`ConnStep`, `ConnReach`).  Filesystem state is modelled
as a function from paths to stat results; byte strings are modelled as
`List Nat` (request reading) or `String`/`List Char` (paths, which in all
scenarios of interest are ASCII so char-level equals byte-level behavior).
Each definition is translated from the corresponding Go function; theorems
at the end settle the specification claims.
-/

/-- Error kinds of the server, from the `responseError` values in sys_unix.go.
Each carries a status code in the source (400, 403, 404, 500). -/
inductive ResponseError where
  | badRequest
  | forbidden
  | fileNotFound
  | internalServerError
deriving DecidableEq, Repr

/-- Kind of a filesystem entry as distinguished by `getStats`:
`mode.IsRegular()`, `mode.IsDir()`, or anything else. -/
inductive FileKind where
  | regular
  | directory
  | other
deriving DecidableEq, Repr

/-- Result of `os.Stat` on a path: nonexistent, other stat error, or an entry
with a file kind and (world) permission bits of its mode. -/
inductive StatResult where
  | notExist
  | errOther
  | entry (kind : FileKind) (mode : Nat)
deriving DecidableEq, Repr

/-- A filesystem state: what `os.Stat` returns for each path. -/
abbrev FS := String → StatResult

/-- The `excluded` extension set (populated by the repeatable -exclude flag),
as its characteristic function. -/
abbrev Excl := String → Bool

/-- Result quadruple of `getStats`: `isFile, isDir, isCGI, responseErr`. -/
structure Stats where
  isFile : Bool
  isDir : Bool
  isCGI : Bool
  err : Option ResponseError
deriving DecidableEq, Repr

/-- Go `path[:n]` on an ASCII string (chars model bytes). -/
def strTake (s : String) (n : Nat) : String :=
  String.mk (s.data.take n)

/-- Go `path[n:]` on an ASCII string. -/
def strDrop (s : String) (n : Nat) : String :=
  String.mk (s.data.drop n)

/-- Go `path[a:b]` on an ASCII string. -/
def strSlice (s : String) (a b : Nat) : String :=
  String.mk ((s.data.take b).drop a)

/-- Go `path[i]` on an ASCII string (total model; in the source the index is
always in range). -/
def charAt (s : String) (i : Nat) : Char :=
  s.data.getD i 'a'

/-- Go `strings.HasSuffix s suffix`. -/
def strEndsWith (s suffix : String) : Bool :=
  List.isSuffixOf suffix.data s.data

/-- Scanner for Go `filepath.Ext`: walk the path backwards from the end
(first argument is the reversed path, second accumulates the already-walked
tail in order); stop at a path separator; on a dot return the suffix from
that dot. -/
def extGo : List Char → List Char → List Char
  | [], _ => []
  | c :: rest, acc =>
    if c = '/' then []
    else if c = '.' then c :: acc
    else extGo rest (c :: acc)

/-- Go `filepath.Ext path`: the suffix beginning at the final dot in the
final slash-separated element of the path; empty if there is no dot. -/
def fileExt (s : String) : String :=
  String.mk (extGo s.data.reverse [])

/-- The `getStats` function of sys_unix.go: stat a path and report whether it
is a regular file, a directory and a CGI, with the permission rule
(world-read 004 for plain files; world-read+exec 005 for directories and
CGI scripts) and the excluded-extension rule. -/
def getStats (excl : Excl) (fs : FS) (path : String) : Stats :=
  match fs path with
  | .notExist => { isFile := false, isDir := false, isCGI := false, err := some .fileNotFound }
  | .errOther => { isFile := false, isDir := false, isCGI := false, err := some .forbidden }
  | .entry .regular mode =>
    if excl (fileExt path) then
      { isFile := false, isDir := false, isCGI := false, err := some .forbidden }
    else
      { isFile := true, isDir := false, isCGI := strEndsWith path ".cgi",
        err := if strEndsWith path ".cgi" then
            (if mode &&& 5 = 5 then none else some .forbidden)
          else
            (if mode &&& 4 = 4 then none else some .forbidden) }
  | .entry .directory mode =>
    { isFile := false, isDir := true, isCGI := false,
      err := if mode &&& 5 = 5 then none else some .forbidden }
  | .entry .other mode =>
    { isFile := false, isDir := false, isCGI := false,
      err := if mode &&& 4 = 4 then none else some .forbidden }

/-- One pass of the component loop of `normalizePath`: after skipping leading
slashes, the remainder of the walk starts at the first slash after the
current component (empty if the component reaches the end of the string). -/
def segs (cs : List Char) : List String :=
  if h : ((cs.dropWhile (fun c => c == '/')).dropWhile (fun c => c != '/')).isEmpty then
    [String.mk ((cs.dropWhile (fun c => c == '/')).takeWhile (fun c => c != '/'))]
  else
    String.mk ((cs.dropWhile (fun c => c == '/')).takeWhile (fun c => c != '/')) ::
      segs ((cs.dropWhile (fun c => c == '/')).dropWhile (fun c => c != '/')).tail
termination_by cs.length
decreasing_by
  have h1 : (cs.dropWhile (fun c => c == '/')).length ≤ cs.length :=
    (List.dropWhile_sublist _).length_le
  have h2 : ((cs.dropWhile (fun c => c == '/')).dropWhile (fun c => c != '/')).length ≤
      (cs.dropWhile (fun c => c == '/')).length :=
    (List.dropWhile_sublist _).length_le
  simp only [List.isEmpty_eq_true] at h
  have h3 : 0 < ((cs.dropWhile (fun c => c == '/')).dropWhile (fun c => c != '/')).length :=
    List.length_pos.mpr h
  simp only [List.length_tail]
  omega

/-- The sequence of slash-separated components that the scanning loop of
`normalizePath` visits, in order.  An empty input produces no component (the
Go loop condition `end < len(path)` fails at once); a trailing slash
produces a final empty component. -/
def segments (s : String) : List String :=
  if s.data.isEmpty then [] else segs s.data

/-- One iteration of the component processing of `normalizePath`: `..` pops
the last collected component (failure, modelled by `none`, if there is
none), `.` is dropped, anything else is appended. -/
def normStep (acc : Option (List String)) (comp : String) : Option (List String) :=
  match acc with
  | none => none
  | some l =>
    if comp = ".." then (if l = [] then none else some l.dropLast)
    else if comp = "." then some l
    else some (l ++ [comp])

/-- The flattening loop at the end of `normalizePath`: each component is
preceded by a slash. -/
def joinComponents (l : List String) : String :=
  l.foldl (fun acc c => acc ++ "/" ++ c) ""

/-- The `normalizePath` function of sys_unix.go: lexically normalize a path,
condensing dot, dot-dot and consecutive slashes; more dot-dots than
preceding components is a failure (`none`). -/
def normalizePath (p : String) : Option String :=
  match (segments p).foldl normStep (some []) with
  | none => none
  | some l => some (joinComponents l)

/-- Hexadecimal digit test used by percent-decoding (`url.PathUnescape`). -/
def isHexDigit (c : Char) : Bool :=
  decide (('0' ≤ c ∧ c ≤ '9') ∨ ('a' ≤ c ∧ c ≤ 'f') ∨ ('A' ≤ c ∧ c ≤ 'F'))

/-- Value of a hexadecimal digit. -/
def hexVal (c : Char) : Nat :=
  if '0' ≤ c ∧ c ≤ '9' then c.toNat - '0'.toNat
  else if 'a' ≤ c ∧ c ≤ 'f' then c.toNat - 'a'.toNat + 10
  else if 'A' ≤ c ∧ c ≤ 'F' then c.toNat - 'A'.toNat + 10
  else 0

/-- Percent-decoding of `url.PathUnescape` at the byte level: every `%` must
be followed by two hexadecimal digits, which decode to one byte; failure
otherwise. -/
def unescapeList : List Char → Option (List Char)
  | [] => some []
  | '%' :: rest =>
    match rest with
    | h1 :: h2 :: rest2 =>
      if isHexDigit h1 && isHexDigit h2 then
        match unescapeList rest2 with
        | none => none
        | some out => some (Char.ofNat (16 * hexVal h1 + hexVal h2) :: out)
      else none
    | _ => none
  | c :: rest =>
    match unescapeList rest with
    | none => none
    | some out => some (c :: out)

/-- Go `url.PathUnescape` on an ASCII string. -/
def pathUnescape (s : String) : Option String :=
  match unescapeList s.data with
  | none => none
  | some out => some (String.mk out)

/-- The `splitRequest` function of sys_unix.go: cut the request at the first
tab into selector and search (the search itself truncated at any further
tab), and cut the selector at the first `?` into path and query. -/
def splitRequest (request : List Char) : String × String × String × String :=
  (String.mk (request.takeWhile (fun c => c != '\t')),
   String.mk ((request.takeWhile (fun c => c != '\t')).takeWhile (fun c => c != '?')),
   String.mk (((request.takeWhile (fun c => c != '\t')).dropWhile (fun c => c != '?')).drop 1),
   String.mk ((((request.dropWhile (fun c => c != '\t')).drop 1).takeWhile (fun c => c != '\t'))))

/-- Failure modes of `readRequest`: a read error from the connection, a bad
request (NUL byte or misplaced CR), or exceeding the maximum request size.
The caller (`handleConn`) maps every failure to a 400 Bad Request reply. -/
inductive ReadErr where
  | connFail
  | badRequest
  | tooBig
deriving DecidableEq, Repr

/-- The CR handling of `readRequest` once a LF is found: scan for the first
CR; no CR returns the buffer, a CR at the very end is stripped, a CR
anywhere else is a bad request. -/
def finishRequest (buf : List Nat) : Except ReadErr (List Nat) :=
  if (buf.takeWhile (fun b => b != 13)).length = buf.length then .ok buf
  else if (buf.takeWhile (fun b => b != 13)).length = buf.length - 1 then
    .ok (buf.take ((buf.takeWhile (fun b => b != 13)).length))
  else .error .badRequest

/-- The read loop of `readRequest`: while the accumulated buffer is shorter
than 16384 bytes, take the next chunk returned by `reader.Read` (at most
4096 bytes each in the source), reject NUL bytes, append the chunk up to
its first LF, and finish when a LF was seen.  Running out of chunks models
a read error. -/
def readRequestLoop (chunks : List (List Nat)) (requestBuf : List Nat) :
    Except ReadErr (List Nat) :=
  if requestBuf.length < 16384 then
    match chunks with
    | [] => .error .connFail
    | chunk :: rest =>
      if chunk.contains 0 then .error .badRequest
      else
        if chunk.contains 10 then
          finishRequest (requestBuf ++ chunk.takeWhile (fun b => b != 10))
        else readRequestLoop rest (requestBuf ++ chunk.takeWhile (fun b => b != 10))
  else .error .tooBig

/-- The `readRequest` function of sys_unix.go, as a function of the sequence
of chunks successively returned by reads from the connection. -/
def readRequest (chunks : List (List Nat)) : Except ReadErr (List Nat) :=
  readRequestLoop chunks []

/-- The index files probed under a directory, in order (`indexPaths`). -/
def indexPaths : List String := ["/index.cgi", "/index.map"]

/-- Mutable state of the scanning loop of `splitScriptPathAndPathInfo`:
the best candidate file so far, the script boundary `split`, and the
pending error. -/
structure ScanState where
  fsPath : String
  split : Nat
  err : Option ResponseError
deriving DecidableEq, Repr

/-- Result quadruple of `splitScriptPathAndPathInfo` and `splitPath`. -/
structure SplitOut where
  fsPath : String
  scriptName : String
  pathInfo : String
  err : Option ResponseError
deriving DecidableEq, Repr

/-- One probe of the inner index loop: if `curPath + indexPath` stat's as a
file with no error, it becomes the candidate (fsPath, split := n, err
cleared); otherwise the state is unchanged.  The Go loop has no break, so
a later hit overwrites an earlier one. -/
def probeStep (excl : Excl) (fs : FS) (curPath : String) (n : Nat)
    (st : ScanState) (indexPath : String) : ScanState :=
  if (getStats excl fs (curPath ++ indexPath)).err.isNone &&
      (getStats excl fs (curPath ++ indexPath)).isFile then
    { fsPath := curPath ++ indexPath, split := n, err := none }
  else st

/-- The inner `for _, indexPath := range indexPaths` loop of
`splitScriptPathAndPathInfo`. -/
def probeIndexes (excl : Excl) (fs : FS) (curPath : String) (n : Nat)
    (st : ScanState) : ScanState :=
  indexPaths.foldl (probeStep excl fs curPath n) st

/-- The advance step of the scanning loop
(`for n++; n != len(path) && path[n] != '/'; n++`): move past the slash at
the cursor and then past the following component. -/
def nextBoundary (path : String) (n : Nat) : Nat :=
  n + 1 + ((path.data.drop (n + 1)).takeWhile (fun c => c != '/')).length

/-- Final assignment of `splitScriptPathAndPathInfo`
(`scriptName, pathInfo = path[startLength:split], path[split:]`). -/
def mkOut (path : String) (startLength : Nat) (st : ScanState) : SplitOut :=
  { fsPath := st.fsPath, scriptName := strSlice path startLength st.split,
    pathInfo := strDrop path st.split, err := st.err }

/-- The scanning loop of `splitScriptPathAndPathInfo` over cursor positions
`n`.  At each position: a regular-file prefix ends the walk as the final
resolution (leaving `err` as it stands); a missing or non-directory prefix
ends the walk; otherwise the index files are probed and the cursor
advances, stopping at the end of the path (the comparison `n == len(path)`
of the source is modelled by `len(path) ≤ n` - in the source the cursor
never exceeds the length) or before a trailing empty component. -/
def sspLoop (excl : Excl) (fs : FS) (path : String) (startLength : Nat)
    (n : Nat) (st : ScanState) : SplitOut :=
  if (getStats excl fs (strTake path n)).isFile then
    mkOut path startLength { fsPath := strTake path n, split := n, err := st.err }
  else if (getStats excl fs (strTake path n)).err.isSome ||
      !(getStats excl fs (strTake path n)).isDir then
    mkOut path startLength st
  else if h : path.length ≤ n then
    mkOut path startLength (probeIndexes excl fs (strTake path n) n st)
  else if nextBoundary path n = path.length ∧
      charAt path (nextBoundary path n - 1) = '/' then
    mkOut path startLength (probeIndexes excl fs (strTake path n) n st)
  else
    sspLoop excl fs path startLength (nextBoundary path n)
      (probeIndexes excl fs (strTake path n) n st)
termination_by path.length - n
decreasing_by
  have h1 : ((path.data.drop (n + 1)).takeWhile (fun c => c != '/')).length ≤
      (path.data.drop (n + 1)).length :=
    (List.takeWhile_sublist _).length_le
  have h2 : (path.data.drop (n + 1)).length = path.data.length - (n + 1) :=
    List.length_drop _ _
  have h3 : path.length = path.data.length := rfl
  simp only [nextBoundary]
  omega

/-- The `splitScriptPathAndPathInfo` function of sys_unix.go. -/
def splitScriptPathAndPathInfo (excl : Excl) (fs : FS) (path : String)
    (startLength : Nat) : SplitOut :=
  if (getStats excl fs path).err.isNone && (getStats excl fs path).isFile then
    { fsPath := path, scriptName := strDrop path startLength, pathInfo := "", err := none }
  else if excl ".cgi" then
    { fsPath := "", scriptName := "", pathInfo := "", err := some .fileNotFound }
  else
    sspLoop excl fs path startLength startLength
      { fsPath := "", split := startLength, err := some .fileNotFound }

/-- The `splitPath` function of sys_unix.go: percent-decode the request path
(rejecting bad escapes and NUL), normalize it (rejecting escapes above the
root), and split the result against the filesystem. -/
def splitPath (excl : Excl) (fs : FS) (rootPath p : String) : SplitOut :=
  match pathUnescape p with
  | none => { fsPath := "", scriptName := "", pathInfo := "", err := some .badRequest }
  | some q =>
    if q.data.contains (Char.ofNat 0) then
      { fsPath := "", scriptName := "", pathInfo := "", err := some .badRequest }
    else
      match normalizePath q with
      | none => { fsPath := "", scriptName := "", pathInfo := "", err := some .forbidden }
      | some np => splitScriptPathAndPathInfo excl fs (rootPath ++ np) rootPath.length

/-- Go `strings.LastIndex s "/"` on the character list of the path. -/
def lastIndexSlash : List Char → Option Nat
  | [] => none
  | c :: rest =>
    match lastIndexSlash rest with
    | some i => some (i + 1)
    | none => if c = '/' then some 0 else none

/-- The observable invocation plan of `runCGI`: the positional argument list
passed to the child and the child's working directory. -/
structure CGICall where
  args : List String
  dir : String
deriving DecidableEq, Repr

/-- The `runCGI` function of sys_unix.go, restricted to its process-creation
data: six positional arguments in the order search, query, server host,
server port (decimal), path info, raw selector, and the working directory
set to everything before the last slash of the executable path (falling
back to the document root when there is no slash, which the source notes
cannot happen). -/
def runCGIPlan (docRoot serverhost : String) (serverport : Nat)
    (selector fsPath pathInfo query search : String) : CGICall :=
  { args := [search, query, serverhost, toString serverport, pathInfo, selector],
    dir :=
      match lastIndexSlash fsPath.data with
      | some i => strTake fsPath i
      | none => docRoot }

/-- Transitions of the connection-admission semaphore: the accept loop sends
a token into the buffered channel `connChan` of capacity `maxconn` (which
blocks while the buffer is full, hence the guard), and each connection
handler receives exactly one token back when it exits (its first deferred
action). -/
inductive ConnStep (maxconn : Nat) : Nat → Nat → Prop where
  | acquire : ∀ {n : Nat}, n < maxconn → ConnStep maxconn n (n + 1)
  | release : ∀ {n : Nat}, ConnStep maxconn (n + 1) n

/-- Token counts of `connChan` reachable from server start (empty buffer). -/
inductive ConnReach (maxconn : Nat) : Nat → Prop where
  | init : ConnReach maxconn 0
  | step : ∀ {a b : Nat}, ConnReach maxconn a → ConnStep maxconn a b → ConnReach maxconn b

/-- An empty excluded-extension set (no -exclude flags). -/
def exclNone : Excl := fun _ => false

/-- An excluded-extension set containing exactly `.key`. -/
def exclKey : Excl := fun e => e == ".key"

/-- A filesystem like the `tests/` tree of the test suite at its root: the
root directory with a world-readable `index.map` and nothing else. -/
def fsTests : FS := fun p =>
  if p == "tests" || p == "tests/" then .entry .directory 5
  else if p == "tests/index.map" then .entry .regular 4
  else .notExist

/-- A filesystem whose root directory has both probed index files, both
passing the permission rule. -/
def fsBothIndexes : FS := fun p =>
  if p == "tests" then .entry .directory 5
  else if p == "tests/index.cgi" then .entry .regular 7
  else if p == "tests/index.map" then .entry .regular 4
  else .notExist

/-- A filesystem with no index files: a root directory containing one plain
world-readable file `a`. -/
def fsNoIndex : FS := fun p =>
  if p == "tests" then .entry .directory 5
  else if p == "tests/a" then .entry .regular 4
  else .notExist

/-- A filesystem with a root directory containing one world-readable regular
file `secret.key` and no index files. -/
def fsExcluded : FS := fun p =>
  if p == "tests" then .entry .directory 5
  else if p == "tests/secret.key" then .entry .regular 4
  else .notExist

/-- Disjunction satisfied by every successfully resolved `fsPath`: it is an
index-file candidate (ending in `/index.cgi` or `/index.map`) or a path
prefix that stat's as a regular file. -/
def GoodPath (excl : Excl) (fs : FS) (x : String) : Prop :=
  strEndsWith x "/index.cgi" = true ∨ strEndsWith x "/index.map" = true ∨
    (getStats excl fs x).isFile = true

theorem connReach_le {maxconn n : Nat} (h : ConnReach maxconn n) : n ≤ maxconn := by
  induction h with
  | init => exact Nat.zero_le _
  | step hr hs ih =>
    cases hs with
    | acquire hlt => omega
    | release => omega

theorem strEndsWith_append (p suffix : String) :
    strEndsWith (p ++ suffix) suffix = true := by
  simp only [strEndsWith, String.data_append, List.isSuffixOf_iff_suffix]
  exact List.suffix_append _ _

theorem lastIndexSlash_eq_none {cs : List Char} (h : lastIndexSlash cs = none) :
    '/' ∉ cs := by
  induction cs with
  | nil => simp
  | cons c rest ih =>
    rw [lastIndexSlash] at h
    cases hr : lastIndexSlash rest with
    | some j => rw [hr] at h; exact absurd h (by simp)
    | none =>
      rw [hr] at h
      by_cases hc : c = '/'
      · rw [if_pos hc] at h; exact absurd h (by simp)
      · rw [if_neg hc] at h
        simp only [List.mem_cons, not_or]
        exact ⟨fun hcc => hc hcc.symm, ih hr⟩

theorem lastIndexSlash_spec {cs : List Char} {i : Nat} (h : lastIndexSlash cs = some i) :
    ∃ post : List Char, cs.take i ++ '/' :: post = cs ∧ '/' ∉ post := by
  induction cs generalizing i with
  | nil => simp [lastIndexSlash] at h
  | cons c rest ih =>
    rw [lastIndexSlash] at h
    cases hr : lastIndexSlash rest with
    | some j =>
      rw [hr] at h
      simp only [Option.some.injEq] at h
      obtain ⟨post, hp, hn⟩ := ih hr
      refine ⟨post, ?_, hn⟩
      rw [← h]
      simpa [List.take] using hp
    | none =>
      rw [hr] at h
      by_cases hc : c = '/'
      · rw [if_pos hc] at h
        simp only [Option.some.injEq] at h
        exact ⟨rest, by rw [← h, hc]; rfl, lastIndexSlash_eq_none hr⟩
      · rw [if_neg hc] at h; exact absurd h (by simp)

/-- C7: for every resolved CGI invocation, `runCGI` passes exactly the six
positional arguments search, query, server host, server port (decimal),
pathInfo and raw selector, in that order, and the working directory of the
child is the directory containing the executable (everything before the
last slash of `fsPath`, whose remainder contains no further slash). -/
theorem runCGI_args_and_workdir (docRoot serverhost : String) (serverport : Nat)
    (selector fsPath pathInfo query search : String)
    (h : '/' ∈ fsPath.data) :
    (runCGIPlan docRoot serverhost serverport selector fsPath pathInfo query search).args =
      [search, query, serverhost, toString serverport, pathInfo, selector] ∧
    ∃ base : List Char, '/' ∉ base ∧
      (runCGIPlan docRoot serverhost serverport selector fsPath pathInfo query
          search).dir.data ++ '/' :: base = fsPath.data := by
  constructor
  · rfl
  · cases hm : lastIndexSlash fsPath.data with
    | none => exact absurd h (lastIndexSlash_eq_none hm)
    | some i =>
      obtain ⟨post, hp, hn⟩ := lastIndexSlash_spec hm
      refine ⟨post, hn, ?_⟩
      simp only [runCGIPlan, hm, strTake]
      exact hp

theorem runCGI_args_and_workdir_witness :
    '/' ∈ "/srv/gopher/a/b.cgi".data ∧
    ((runCGIPlan "/srv/gopher" "localhost" 70 "/a/b.cgi/c" "/srv/gopher/a/b.cgi" "/c" "q"
        "s").args =
      ["s", "q", "localhost", toString (70 : Nat), "/c", "/a/b.cgi/c"] ∧
    ∃ base : List Char, '/' ∉ base ∧
      (runCGIPlan "/srv/gopher" "localhost" 70 "/a/b.cgi/c" "/srv/gopher/a/b.cgi" "/c" "q"
          "s").dir.data ++ '/' :: base = "/srv/gopher/a/b.cgi".data) :=
  ⟨by decide,
    runCGI_args_and_workdir "/srv/gopher" "localhost" 70 "/a/b.cgi/c" "/srv/gopher/a/b.cgi"
      "/c" "q" "s" (by decide)⟩

/-- C9: at no point do more than `maxconn` connection handlers hold a token
of the admission semaphore: every reachable token count of the buffered
channel `connChan` is at most `maxconn` (each handler returns its single
token by its deferred receive, modelled by the release transition). -/
theorem semaphore_cap_invariant (maxconn n : Nat) (h : ConnReach maxconn n) :
    n ≤ maxconn :=
  connReach_le h

theorem semaphore_cap_invariant_witness : ConnReach 2 1 ∧ 1 ≤ 2 :=
  have h1 : ConnReach 2 1 := ConnReach.step ConnReach.init (ConnStep.acquire (by omega))
  ⟨h1, semaphore_cap_invariant 2 1 h1⟩

theorem probeIndexes_cases (excl : Excl) (fs : FS) (curPath : String) (n : Nat)
    (st : ScanState) :
    probeIndexes excl fs curPath n st = st ∨
    probeIndexes excl fs curPath n st =
      { fsPath := curPath ++ "/index.cgi", split := n, err := none } ∨
    probeIndexes excl fs curPath n st =
      { fsPath := curPath ++ "/index.map", split := n, err := none } := by
  simp only [probeIndexes, indexPaths, List.foldl_cons, List.foldl_nil, probeStep]
  split
  · right; right; rfl
  · split
    · right; left; rfl
    · left; rfl

/-- C6 (amended): at a directory cursor position where both `index.cgi` and
`index.map` exist as regular files passing the permission rule, the probe
loop records `index.map` - the last in the fixed probe order, since the
loop has no break and a later hit overwrites an earlier one. -/
theorem index_probe_last_wins (excl : Excl) (fs : FS) (curPath : String) (n : Nat)
    (st : ScanState)
    (h1 : (getStats excl fs (curPath ++ "/index.cgi")).err = none)
    (h2 : (getStats excl fs (curPath ++ "/index.cgi")).isFile = true)
    (h3 : (getStats excl fs (curPath ++ "/index.map")).err = none)
    (h4 : (getStats excl fs (curPath ++ "/index.map")).isFile = true) :
    probeIndexes excl fs curPath n st =
      { fsPath := curPath ++ "/index.map", split := n, err := none } := by
  simp [probeIndexes, indexPaths, probeStep, h1, h2, h3, h4]

theorem index_probe_last_wins_witness :
    (getStats exclNone fsBothIndexes ("tests" ++ "/index.cgi")).err = none ∧
    (getStats exclNone fsBothIndexes ("tests" ++ "/index.cgi")).isFile = true ∧
    (getStats exclNone fsBothIndexes ("tests" ++ "/index.map")).err = none ∧
    (getStats exclNone fsBothIndexes ("tests" ++ "/index.map")).isFile = true ∧
    probeIndexes exclNone fsBothIndexes "tests" 5
        { fsPath := "", split := 5, err := some .fileNotFound } =
      { fsPath := "tests" ++ "/index.map", split := 5, err := none } :=
  ⟨by decide, by decide, by decide, by decide,
    index_probe_last_wins exclNone fsBothIndexes "tests" 5
      { fsPath := "", split := 5, err := some .fileNotFound }
      (by decide) (by decide) (by decide) (by decide)⟩

theorem fsBothIndexes_eval :
    splitScriptPathAndPathInfo exclNone fsBothIndexes "tests/x" 5 =
      { fsPath := "tests/index.map", scriptName := "", pathInfo := "/x", err := none } := by
  rw [splitScriptPathAndPathInfo]
  simp +decide
  rw [sspLoop.eq_def]
  simp +decide
  rw [sspLoop.eq_def]
  simp +decide

/-- C6 (counterexample): with both index files present and passing under the
root directory, resolution of `/x` yields an `fsPath` ending in
`/index.map`, not `/index.cgi` as the claim states. -/
theorem index_probe_order_cex :
    (splitScriptPathAndPathInfo exclNone fsBothIndexes "tests/x" 5).fsPath =
      "tests/index.map" ∧
    strEndsWith (splitScriptPathAndPathInfo exclNone fsBothIndexes "tests/x" 5).fsPath
      "/index.cgi" = false ∧
    strEndsWith (splitScriptPathAndPathInfo exclNone fsBothIndexes "tests/x" 5).fsPath
      "/index.map" = true := by
  rw [fsBothIndexes_eval]
  exact ⟨rfl, by decide, by decide⟩

/-- C5 (amended): `getStats` on a regular file whose extension is excluded
reports Forbidden (and does not report it as a file); the overall path
resolution, however, does not propagate this Forbidden (see the
counterexample, where it reports FileNotFound). -/
theorem excluded_ext_getStats_forbidden (excl : Excl) (fs : FS) (p : String) (mode : Nat)
    (hf : fs p = .entry .regular mode) (he : excl (fileExt p) = true) :
    getStats excl fs p =
      { isFile := false, isDir := false, isCGI := false, err := some .forbidden } := by
  simp only [getStats, hf, he, if_pos]

theorem excluded_ext_getStats_forbidden_witness :
    fsExcluded "tests/secret.key" = .entry .regular 4 ∧
    exclKey (fileExt "tests/secret.key") = true ∧
    getStats exclKey fsExcluded "tests/secret.key" =
      { isFile := false, isDir := false, isCGI := false, err := some .forbidden } :=
  ⟨by decide, by decide,
    excluded_ext_getStats_forbidden exclKey fsExcluded "tests/secret.key" 4
      (by decide) (by decide)⟩

theorem fsExcluded_eval :
    splitScriptPathAndPathInfo exclKey fsExcluded "tests/secret.key" 5 =
      { fsPath := "", scriptName := "", pathInfo := "/secret.key",
        err := some .fileNotFound } := by
  rw [splitScriptPathAndPathInfo]
  simp +decide
  rw [sspLoop.eq_def]
  simp +decide
  rw [sspLoop.eq_def]
  simp +decide

/-- C5 (counterexample): the full path `tests/secret.key` stat's as a regular
file with the excluded extension `.key`, yet `splitScriptPathAndPathInfo`
fails with FileNotFound, not Forbidden. -/
theorem excluded_ext_resolution_cex :
    fsExcluded "tests/secret.key" = .entry .regular 4 ∧
    exclKey (fileExt "tests/secret.key") = true ∧
    (splitScriptPathAndPathInfo exclKey fsExcluded "tests/secret.key" 5).err =
      some .fileNotFound := by
  refine ⟨by decide, by decide, ?_⟩
  rw [fsExcluded_eval]

/-- C3: with no index file anywhere, the path `tests/a/b` whose proper prefix
`tests/a` stat's as a regular file is resolved to that prefix with
path-info `/b` - but the error result is still FileNotFound, because the
regular-file break of the scanning loop never clears the default error
(the claim, the specification and the numbered comment in the source,
`3 If the current path is a file, use it. Return.`, all describe a
successful resolution here). -/
theorem splitPath_file_hit_without_index_eval :
    splitScriptPathAndPathInfo exclNone fsNoIndex "tests/a/b" 5 =
      { fsPath := "tests/a", scriptName := "/a", pathInfo := "/b",
        err := some .fileNotFound } ∧
    (getStats exclNone fsNoIndex "tests/a").isFile = true := by
  constructor
  · rw [splitScriptPathAndPathInfo]
    simp +decide
    rw [sspLoop.eq_def]
    simp +decide
    rw [sspLoop.eq_def]
    simp +decide
  · decide

theorem probeIndexes_good (excl : Excl) (fs : FS) (curPath : String) (n : Nat)
    (st : ScanState) (hinv : st.err = none → GoodPath excl fs st.fsPath) :
    (probeIndexes excl fs curPath n st).err = none →
      GoodPath excl fs (probeIndexes excl fs curPath n st).fsPath := by
  rcases probeIndexes_cases excl fs curPath n st with h | h | h <;> rw [h]
  · exact hinv
  · intro _
    exact Or.inl (strEndsWith_append curPath "/index.cgi")
  · intro _
    exact Or.inr (Or.inl (strEndsWith_append curPath "/index.map"))

theorem sspLoop_good (excl : Excl) (fs : FS) (path : String) (startLength : Nat)
    (n : Nat) (st : ScanState) :
    (st.err = none → GoodPath excl fs st.fsPath) →
    ((sspLoop excl fs path startLength n st).err = none →
      GoodPath excl fs (sspLoop excl fs path startLength n st).fsPath) := by
  induction n, st using sspLoop.induct excl fs path startLength with
  | case1 n st h1 =>
    intro _
    rw [sspLoop.eq_def, if_pos h1]
    intro _
    exact Or.inr (Or.inr h1)
  | case2 n st h1 h2 =>
    intro hinv
    rw [sspLoop.eq_def, if_neg (by simp [h1]), if_pos h2]
    exact hinv
  | case3 n st h1 h2 h3 =>
    intro hinv
    rw [sspLoop.eq_def, if_neg (by simp [h1]), if_neg (by simp [h2]), dif_pos h3]
    exact probeIndexes_good excl fs (strTake path n) n st hinv
  | case4 n st h1 h2 h3 h4 =>
    intro hinv
    rw [sspLoop.eq_def, if_neg (by simp [h1]), if_neg (by simp [h2]), dif_neg h3, if_pos h4]
    exact probeIndexes_good excl fs (strTake path n) n st hinv
  | case5 n st h1 h2 h3 h4 ih =>
    intro hinv
    rw [sspLoop.eq_def, if_neg (by simp [h1]), if_neg (by simp [h2]), dif_neg h3, if_neg h4]
    exact ih (probeIndexes_good excl fs (strTake path n) n st hinv)

/-- C2 (amended): whenever path resolution succeeds with non-empty pathInfo,
the returned fsPath either ends in `/index.cgi` or `/index.map` (a
directory-index resolution) or itself stat's as a regular file (a path
prefix hit; its name is unconstrained, so it need not end in `.cgi`). -/
theorem splitPath_pathInfo_exclusivity_amended (excl : Excl) (fs : FS) (path : String)
    (startLength : Nat)
    (h1 : (splitScriptPathAndPathInfo excl fs path startLength).err = none)
    (h2 : (splitScriptPathAndPathInfo excl fs path startLength).pathInfo ≠ "") :
    GoodPath excl fs (splitScriptPathAndPathInfo excl fs path startLength).fsPath := by
  rw [splitScriptPathAndPathInfo] at h1 h2 ⊢
  by_cases hc : ((getStats excl fs path).err.isNone && (getStats excl fs path).isFile) = true
  · rw [if_pos hc] at h2
    simp at h2
  · rw [if_neg hc] at h1 ⊢
    by_cases he : excl ".cgi" = true
    · rw [if_pos he] at h1
      simp at h1
    · rw [if_neg he] at h1 ⊢
      exact sspLoop_good excl fs path startLength startLength
        { fsPath := "", split := startLength, err := some .fileNotFound }
        (by intro hcontra; simp at hcontra) h1

theorem fsTests_x_eval :
    splitScriptPathAndPathInfo exclNone fsTests "tests/x" 5 =
      { fsPath := "tests/index.map", scriptName := "", pathInfo := "/x", err := none } := by
  rw [splitScriptPathAndPathInfo]
  simp +decide
  rw [sspLoop.eq_def]
  simp +decide
  rw [sspLoop.eq_def]
  simp +decide

/-- C2 (counterexample): with only the root index file `tests/index.map`
present, resolution of `/x` succeeds with pathInfo `/x` while fsPath is
`tests/index.map`, which ends neither in `.cgi` nor in `/index.cgi` (this
is also the behavior the test suite of the source asserts). -/
theorem splitPath_pathInfo_exclusivity_cex :
    (splitScriptPathAndPathInfo exclNone fsTests "tests/x" 5).err = none ∧
    (splitScriptPathAndPathInfo exclNone fsTests "tests/x" 5).pathInfo = "/x" ∧
    strEndsWith (splitScriptPathAndPathInfo exclNone fsTests "tests/x" 5).fsPath
      ".cgi" = false ∧
    strEndsWith (splitScriptPathAndPathInfo exclNone fsTests "tests/x" 5).fsPath
      "/index.cgi" = false := by
  rw [fsTests_x_eval]
  exact ⟨rfl, rfl, by decide, by decide⟩

theorem splitPath_pathInfo_exclusivity_amended_witness :
    (splitScriptPathAndPathInfo exclNone fsTests "tests/x" 5).err = none ∧
    (splitScriptPathAndPathInfo exclNone fsTests "tests/x" 5).pathInfo ≠ "" ∧
    GoodPath exclNone fsTests (splitScriptPathAndPathInfo exclNone fsTests "tests/x" 5).fsPath :=
  ⟨by rw [fsTests_x_eval], by rw [fsTests_x_eval]; decide,
    splitPath_pathInfo_exclusivity_amended exclNone fsTests "tests/x" 5
      (by rw [fsTests_x_eval]) (by rw [fsTests_x_eval]; decide)⟩

theorem dropWhile_head_eq {l : List Char} {sep d : Char} {t : List Char}
    (h : l.dropWhile (fun c => c != sep) = d :: t) : d = sep := by
  induction l with
  | nil => simp at h
  | cons a l ih =>
    rw [List.dropWhile_cons] at h
    by_cases ha : (a != sep) = true
    · rw [if_pos ha] at h
      exact ih h
    · rw [if_neg ha] at h
      injection h with h1 h2
      subst h1
      simpa using ha

/-- C8 (amended): the selector splits as path plus query with the case
distinction made on whether the selector contains a `?` (not on emptiness
of the query): without a `?` the query is empty and selector equals path;
with a `?` the selector is path ++ "?" ++ query (also when the query is
empty, which is what falsifies the original claim). -/
theorem splitRequest_selector_join_amended (request : List Char) :
    (¬ '?' ∈ (splitRequest request).1.data →
      (splitRequest request).2.2.1 = "" ∧
      (splitRequest request).1 = (splitRequest request).2.1) ∧
    ('?' ∈ (splitRequest request).1.data →
      (splitRequest request).1 =
        (splitRequest request).2.1 ++ "?" ++ (splitRequest request).2.2.1) := by
  simp only [splitRequest]
  constructor
  · intro hnot
    have hall : ∀ c ∈ request.takeWhile (fun c => c != '\t'), (c != '?') = true := by
      intro c hc
      simp only [bne_iff_ne, ne_eq]
      intro he
      exact hnot (he ▸ hc)
    constructor
    · rw [List.dropWhile_eq_nil_iff.mpr hall]
      rfl
    · rw [List.takeWhile_eq_self_iff.mpr hall]
  · intro hmem
    cases hd : (request.takeWhile (fun c => c != '\t')).dropWhile (fun c => c != '?') with
    | nil =>
      exfalso
      have := List.dropWhile_eq_nil_iff.mp hd _ hmem
      simp at this
    | cons d t =>
      have hdq : d = '?' := dropWhile_head_eq hd
      have hsplit : request.takeWhile (fun c => c != '\t') =
          (request.takeWhile (fun c => c != '\t')).takeWhile (fun c => c != '?') ++
            ('?' :: t) := by
        conv_lhs => rw [← List.takeWhile_append_dropWhile (fun c => c != '?')
          (request.takeWhile (fun c => c != '\t'))]
        rw [hd, hdq]
      show String.mk (request.takeWhile (fun c => c != '\t')) =
        String.mk ((request.takeWhile (fun c => c != '\t')).takeWhile (fun c => c != '?') ++
          ['?'] ++ (d :: t).drop 1)
      simp only [List.drop_one, List.tail_cons]
      conv_lhs => rw [hsplit]
      simp

theorem splitRequest_selector_join_amended_witness :
    '?' ∈ (splitRequest "/script?query".data).1.data ∧
    (splitRequest "/script?query".data).1 =
      (splitRequest "/script?query".data).2.1 ++ "?" ++
        (splitRequest "/script?query".data).2.2.1 :=
  ⟨by decide, (splitRequest_selector_join_amended "/script?query".data).2 (by decide)⟩

/-- C8 (counterexample): for the request `x?` the query is empty but the
selector `x?` differs from the path `x`, so `selector == path` fails even
though `query == ""`. -/
theorem splitRequest_selector_join_cex :
    (splitRequest "x?".data).2.2.1 = "" ∧
    (splitRequest "x?".data).1 ≠ (splitRequest "x?".data).2.1 := by
  constructor
  · decide
  · decide

theorem takeWhile_length_lt_of_mem {l : List Nat} {a : Nat} (h : a ∈ l) :
    (l.takeWhile (fun b => b != a)).length < l.length := by
  rcases Nat.lt_or_ge (l.takeWhile (fun b => b != a)).length l.length with hlt | hge
  · exact hlt
  · exfalso
    have heq : l.takeWhile (fun b => b != a) = l :=
      (List.takeWhile_sublist _).eq_of_length_le hge
    have := List.takeWhile_eq_self_iff.mp heq a h
    simp at this

theorem finishRequest_ok_length {b r : List Nat} (h : finishRequest b = .ok r) :
    r.length ≤ b.length := by
  unfold finishRequest at h
  split at h
  · injection h with h1
    subst h1
    exact Nat.le_refl _
  · split at h
    · injection h with h1
      subst h1
      simpa using Nat.le_trans (List.length_take_le _ _) (Nat.le_refl _)
    · simp at h

theorem finishRequest_no_cr {b : List Nat} (h : ¬ 13 ∈ b) : finishRequest b = .ok b := by
  unfold finishRequest
  rw [if_pos]
  rw [List.takeWhile_eq_self_iff.mpr]
  intro x hx
  simp only [bne_iff_ne, ne_eq]
  intro he
  exact h (he ▸ hx)

theorem contains_eq_false_iff {l : List Nat} {a : Nat} :
    l.contains a = false ↔ ¬ a ∈ l := by
  rw [← Bool.not_eq_true]
  simp [List.contains]

theorem readRequestLoop_ok_length :
    ∀ (chunks : List (List Nat)) (buf req : List Nat),
      (∀ c ∈ chunks, c.length ≤ 4096) →
      readRequestLoop chunks buf = .ok req → req.length ≤ 20478 := by
  intro chunks
  induction chunks with
  | nil =>
    intro buf req _ h
    rw [readRequestLoop] at h
    split at h <;> simp at h
  | cons chunk rest ih =>
    intro buf req hsz h
    rw [readRequestLoop] at h
    by_cases h16 : buf.length < 16384
    · rw [if_pos h16] at h
      by_cases hz : chunk.contains 0 = true
      · rw [if_pos hz] at h
        simp at h
      · rw [if_neg hz] at h
        by_cases hlf : chunk.contains 10 = true
        · rw [if_pos hlf] at h
          have h1 := finishRequest_ok_length h
          rw [List.length_append] at h1
          have h2 : 10 ∈ chunk := by
            have := List.elem_iff.mp hlf
            exact this
          have h3 := takeWhile_length_lt_of_mem h2
          have h4 : chunk.length ≤ 4096 := hsz chunk (by simp)
          omega
        · rw [if_neg hlf] at h
          exact ih _ req (fun c hc => hsz c (by simp [hc])) h
    · rw [if_neg h16] at h
      simp at h

theorem readRequestLoop_toobig :
    ∀ (chunks : List (List Nat)) (buf : List Nat),
      (∀ c ∈ chunks, ¬ 10 ∈ c ∧ ¬ 0 ∈ c) →
      16384 ≤ buf.length + (chunks.map List.length).sum →
      readRequestLoop chunks buf = .error .tooBig := by
  intro chunks
  induction chunks with
  | nil =>
    intro buf _ hlen
    rw [readRequestLoop]
    rw [if_neg]
    simp only [List.map_nil, List.sum_nil] at hlen
    omega
  | cons chunk rest ih =>
    intro buf hc hlen
    rw [readRequestLoop]
    by_cases h16 : buf.length < 16384
    · rw [if_pos h16]
      have hz : chunk.contains 0 = false := contains_eq_false_iff.mpr (hc chunk (by simp)).2
      have hlf : chunk.contains 10 = false := contains_eq_false_iff.mpr (hc chunk (by simp)).1
      rw [hz, if_neg (by simp)]
      rw [hlf, if_neg (by simp)]
      have htw : chunk.takeWhile (fun b => b != 10) = chunk := by
        rw [List.takeWhile_eq_self_iff]
        intro x hx
        simp only [bne_iff_ne, ne_eq]
        intro he
        exact (hc chunk (by simp)).1 (he ▸ hx)
      rw [htw]
      apply ih
      · intro c hcc
        exact hc c (by simp [hcc])
      · simp only [List.map_cons, List.sum_cons] at hlen
        rw [List.length_append]
        omega
    · rw [if_neg h16]

/-- C4 (amended): a successfully read request is at most 20478 bytes long
(16383 already-buffered bytes plus at most 4095 bytes before the LF of the
final 4096-byte chunk), not 16384; and an input whose reads accumulate
16384 bytes without any LF fails as too large (reported to the client as
a 400 Bad Request). -/
theorem readRequest_bounds_amended :
    (∀ (chunks : List (List Nat)) (req : List Nat),
      (∀ c ∈ chunks, c.length ≤ 4096) →
      readRequest chunks = .ok req → req.length ≤ 20478) ∧
    (∀ chunks : List (List Nat),
      (∀ c ∈ chunks, ¬ 10 ∈ c ∧ ¬ 0 ∈ c) →
      16384 ≤ (chunks.map List.length).sum →
      readRequest chunks = .error .tooBig) := by
  constructor
  · intro chunks req hsz h
    exact readRequestLoop_ok_length chunks [] req hsz h
  · intro chunks hc hlen
    exact readRequestLoop_toobig chunks [] hc (by simpa using hlen)

theorem readRequest_bounds_amended_witness :
    ((∀ c ∈ [[97, 10]], List.length c ≤ 4096) ∧
      readRequest [[97, 10]] = .ok [97] ∧ [97].length ≤ 20478) ∧
    ((∀ c ∈ [List.replicate 16384 97], ¬ 10 ∈ c ∧ ¬ 0 ∈ c) ∧
      16384 ≤ ([List.replicate 16384 97].map List.length).sum ∧
      readRequest [List.replicate 16384 97] = .error .tooBig) := by
  have hmem : ∀ c ∈ [List.replicate 16384 97], ¬ (10 : Nat) ∈ c ∧ ¬ (0 : Nat) ∈ c := by
    intro c hc
    simp only [List.mem_singleton] at hc
    subst hc
    constructor <;>
      · simp only [List.mem_replicate]
        omega
  have hsum : 16384 ≤ ([List.replicate (α := Nat) 16384 97].map List.length).sum := by
    simp only [List.map_cons, List.map_nil, List.sum_cons, List.sum_nil,
      List.length_replicate]
    omega
  refine ⟨⟨by decide, rfl, ?_⟩, hmem, hsum, ?_⟩
  · exact readRequest_bounds_amended.1 [[97, 10]] [97] (by decide) rfl
  · exact readRequest_bounds_amended.2 [List.replicate 16384 97] hmem hsum

theorem readRequestLoop_step (chunk : List Nat) (rest : List (List Nat)) (buf : List Nat)
    (h1 : buf.length < 16384) (h2 : ¬ 0 ∈ chunk) (h3 : ¬ 10 ∈ chunk) :
    readRequestLoop (chunk :: rest) buf = readRequestLoop rest (buf ++ chunk) := by
  rw [readRequestLoop, if_pos h1]
  rw [contains_eq_false_iff.mpr h2, if_neg (by simp)]
  rw [contains_eq_false_iff.mpr h3, if_neg (by simp)]
  congr 1
  have htw : chunk.takeWhile (fun b => b != 10) = chunk := by
    rw [List.takeWhile_eq_self_iff]
    intro x hx
    simp only [bne_iff_ne, ne_eq]
    intro he
    exact h3 (he ▸ hx)
  rw [htw]

theorem readRequestLoop_fin (chunk : List Nat) (rest : List (List Nat)) (buf : List Nat)
    (h1 : buf.length < 16384) (h2 : ¬ 0 ∈ chunk) (h3 : 10 ∈ chunk) :
    readRequestLoop (chunk :: rest) buf =
      finishRequest (buf ++ chunk.takeWhile (fun b => b != 10)) := by
  rw [readRequestLoop, if_pos h1]
  rw [contains_eq_false_iff.mpr h2, if_neg (by simp)]
  rw [if_pos (List.elem_iff.mpr h3)]

theorem not_mem_replicate97 (b : Nat) (n : Nat) (h : b ≠ 97) :
    ¬ b ∈ List.replicate n 97 := by
  simp only [List.mem_replicate]
  omega

/-- C4 (counterexample): a read sequence of three 4096-byte chunks, one
4095-byte chunk and a final chunk `97 97 LF` makes `readRequest` succeed
with a 16385-byte request - longer than the claimed 16384-byte maximum -
because the size check happens only at the top of the read loop, and the
first LF of this input arrives beyond byte 16384 without the read failing. -/
theorem readRequest_oversize_success_cex :
    readRequest [List.replicate 4096 97, List.replicate 4096 97, List.replicate 4096 97,
        List.replicate 4095 97, [97, 97, 10]] =
      .ok (List.replicate 16385 97) ∧
    16384 < (List.replicate (α := Nat) 16385 97).length ∧
    ∀ c ∈ [List.replicate (α := Nat) 4096 97, List.replicate 4096 97,
        List.replicate 4096 97, List.replicate 4095 97, [97, 97, 10]],
      c.length ≤ 4096 := by
  refine ⟨?_, by norm_num, ?_⟩
  · rw [readRequest]
    rw [readRequestLoop_step _ _ _ (by norm_num) (not_mem_replicate97 0 _ (by omega))
      (not_mem_replicate97 10 _ (by omega))]
    rw [List.nil_append]
    rw [readRequestLoop_step _ _ _ (by norm_num) (not_mem_replicate97 0 _ (by omega))
      (not_mem_replicate97 10 _ (by omega))]
    rw [List.append_replicate_replicate]
    rw [readRequestLoop_step _ _ _ (by norm_num) (not_mem_replicate97 0 _ (by omega))
      (not_mem_replicate97 10 _ (by omega))]
    rw [List.append_replicate_replicate]
    rw [readRequestLoop_step _ _ _ (by norm_num) (not_mem_replicate97 0 _ (by omega))
      (not_mem_replicate97 10 _ (by omega))]
    rw [List.append_replicate_replicate]
    rw [readRequestLoop_fin _ _ _ (by norm_num) (by decide) (by decide)]
    have htw : ([97, 97, 10] : List Nat).takeWhile (fun b => b != 10) = [97, 97] := by
      decide
    rw [htw]
    have hconcat : List.replicate (4096 + 4096 + 4096 + 4095) 97 ++ [97, 97] =
        List.replicate 16385 (97 : Nat) := by
      have h2 : ([97, 97] : List Nat) = List.replicate 2 97 := rfl
      rw [h2, List.append_replicate_replicate]
    rw [hconcat]
    rw [finishRequest_no_cr (not_mem_replicate97 13 _ (by omega))]
  · intro c hc
    simp only [List.mem_cons, List.not_mem_nil, or_false] at hc
    rcases hc with h | h | h | h | h <;> subst h <;> norm_num

theorem segs_ne_nil (cs : List Char) : segs cs ≠ [] := by
  rw [segs.eq_def]
  split <;> simp

theorem segs_no_slash (cs : List Char) : ∀ s ∈ segs cs, '/' ∉ s.data := by
  induction cs using segs.induct with
  | case1 cs h =>
    intro s hs
    rw [segs.eq_def, dif_pos h] at hs
    simp only [List.mem_singleton] at hs
    subst hs
    intro hmem
    have hmem2 : '/' ∈ (cs.dropWhile (fun c => c == '/')).takeWhile (fun c => c != '/') :=
      hmem
    have := List.mem_takeWhile_imp hmem2
    simp at this
  | case2 cs h ih =>
    intro s hs
    rw [segs.eq_def, dif_neg h] at hs
    rcases List.mem_cons.mp hs with hh | ht
    · subst hh
      intro hmem
      have hmem2 : '/' ∈ (cs.dropWhile (fun c => c == '/')).takeWhile (fun c => c != '/') :=
        hmem
      have := List.mem_takeWhile_imp hmem2
      simp at this
    · exact ih s ht

theorem dropWhile_beq_head {l : List Char} {d : Char} {D : List Char}
    (h : l.dropWhile (fun c => c == '/') = d :: D) : (d == '/') = false := by
  induction l with
  | nil => simp at h
  | cons a l ih =>
    rw [List.dropWhile_cons] at h
    by_cases ha : (a == '/') = true
    · rw [if_pos ha] at h
      exact ih h
    · rw [if_neg ha] at h
      injection h with h1 h2
      subst h1
      simpa using ha

theorem segs_dropLast_ne_empty (cs : List Char) : ∀ s ∈ (segs cs).dropLast, s ≠ "" := by
  induction cs using segs.induct with
  | case1 cs h =>
    intro s hs
    rw [segs.eq_def, dif_pos h] at hs
    simp at hs
  | case2 cs h ih =>
    intro s hs
    rw [segs.eq_def, dif_neg h] at hs
    rw [List.dropLast_cons_of_ne_nil (segs_ne_nil _)] at hs
    rcases List.mem_cons.mp hs with hh | ht
    · subst hh
      have hA : cs.dropWhile (fun c => c == '/') ≠ [] := by
        intro he
        rw [List.isEmpty_eq_true] at h
        rw [he] at h
        simp at h
      obtain ⟨d, D, hdD⟩ := List.exists_cons_of_ne_nil hA
      have hd : ¬ (d == '/') = true := by
        have := dropWhile_beq_head hdD
        simp [this]
      have hcomp : (cs.dropWhile (fun c => c == '/')).takeWhile (fun c => c != '/') =
          d :: D.takeWhile (fun c => c != '/') := by
        rw [hdD, List.takeWhile_cons, if_pos (by simpa using hd)]
      intro he
      rw [hcomp] at he
      have : (d :: D.takeWhile (fun c => c != '/')) = [] := congrArg String.data he
      simp at this
    · exact ih s ht

theorem segments_no_slash (p : String) : ∀ s ∈ segments p, '/' ∉ s.data := by
  rw [segments]
  split
  · simp
  · exact segs_no_slash _

theorem segments_dropLast_ne_empty (p : String) : ∀ s ∈ (segments p).dropLast, s ≠ "" := by
  rw [segments]
  split
  · simp
  · exact segs_dropLast_ne_empty _

theorem foldl_normStep_none (inputs : List String) : inputs.foldl normStep none = none := by
  induction inputs with
  | nil => rfl
  | cons x xs ih => rw [List.foldl_cons]; exact ih

theorem foldl_normStep_good :
    ∀ (inputs acc l : List String),
      (∀ s ∈ acc, s ≠ "." ∧ s ≠ ".." ∧ '/' ∉ s.data) →
      (∀ s ∈ inputs, '/' ∉ s.data) →
      inputs.foldl normStep (some acc) = some l →
      ∀ s ∈ l, s ≠ "." ∧ s ≠ ".." ∧ '/' ∉ s.data := by
  intro inputs
  induction inputs with
  | nil =>
    intro acc l hacc _ h
    rw [List.foldl_nil] at h
    injection h with h1
    subst h1
    exact hacc
  | cons x xs ih =>
    intro acc l hacc hin h
    rw [List.foldl_cons] at h
    rw [normStep] at h
    by_cases hx1 : x = ".."
    · rw [if_pos hx1] at h
      by_cases hacc0 : acc = []
      · rw [if_pos hacc0] at h
        rw [foldl_normStep_none] at h
        simp at h
      · rw [if_neg hacc0] at h
        refine ih acc.dropLast l ?_ (fun s hs => hin s (by simp [hs])) h
        intro s hs
        exact hacc s (List.dropLast_subset _ hs)
    · rw [if_neg hx1] at h
      by_cases hx2 : x = "."
      · rw [if_pos hx2] at h
        exact ih acc l hacc (fun s hs => hin s (by simp [hs])) h
      · rw [if_neg hx2] at h
        refine ih (acc ++ [x]) l ?_ (fun s hs => hin s (by simp [hs])) h
        intro s hs
        rcases List.mem_append.mp hs with hl | hr
        · exact hacc s hl
        · simp only [List.mem_singleton] at hr
          subst hr
          exact ⟨hx2, hx1, hin s (by simp)⟩

theorem foldl_normStep_last :
    ∀ (inputs acc l : List String),
      (∀ s ∈ acc, s ≠ "") →
      (∀ s ∈ inputs.dropLast, s ≠ "") →
      inputs.foldl normStep (some acc) = some l →
      ∀ s ∈ l.dropLast, s ≠ "" := by
  intro inputs
  induction inputs with
  | nil =>
    intro acc l hacc _ h
    rw [List.foldl_nil] at h
    injection h with h1
    subst h1
    exact fun s hs => hacc s (List.dropLast_subset _ hs)
  | cons x xs ih =>
    intro acc l hacc hin h
    rw [List.foldl_cons] at h
    rw [normStep] at h
    cases xs with
    | nil =>
      rw [List.foldl_nil] at h
      by_cases hx1 : x = ".."
      · rw [if_pos hx1] at h
        by_cases hacc0 : acc = []
        · rw [if_pos hacc0] at h
          simp at h
        · rw [if_neg hacc0] at h
          injection h with h1
          subst h1
          exact fun s hs => hacc s (List.dropLast_subset _ (List.dropLast_subset _ hs))
      · rw [if_neg hx1] at h
        by_cases hx2 : x = "."
        · rw [if_pos hx2] at h
          injection h with h1
          subst h1
          exact fun s hs => hacc s (List.dropLast_subset _ hs)
        · rw [if_neg hx2] at h
          injection h with h1
          subst h1
          rw [List.dropLast_concat]
          exact hacc
    | cons y ys =>
      have hx : x ≠ "" := by
        apply hin
        rw [List.dropLast_cons_of_ne_nil (by simp)]
        simp
      have hin2 : ∀ s ∈ (y :: ys).dropLast, s ≠ "" := by
        intro s hs
        apply hin
        rw [List.dropLast_cons_of_ne_nil (by simp)]
        simp [hs]
      by_cases hx1 : x = ".."
      · rw [if_pos hx1] at h
        by_cases hacc0 : acc = []
        · rw [if_pos hacc0] at h
          rw [foldl_normStep_none] at h
          simp at h
        · rw [if_neg hacc0] at h
          exact ih acc.dropLast l
            (fun s hs => hacc s (List.dropLast_subset _ hs)) hin2 h
      · rw [if_neg hx1] at h
        by_cases hx2 : x = "."
        · rw [if_pos hx2] at h
          exact ih acc l hacc hin2 h
        · rw [if_neg hx2] at h
          refine ih (acc ++ [x]) l ?_ hin2 h
          intro s hs
          rcases List.mem_append.mp hs with hl | hr
          · exact hacc s hl
          · simp only [List.mem_singleton] at hr
            subst hr
            exact hx

theorem join_foldl_acc (l : List String) :
    ∀ acc : String, l.foldl (fun a c => a ++ "/" ++ c) acc = acc ++ joinComponents l := by
  induction l with
  | nil =>
    intro acc
    show acc = acc ++ joinComponents []
    rw [show joinComponents [] = "" from rfl, String.append_empty]
  | cons c t ih =>
    intro acc
    rw [List.foldl_cons, ih (acc ++ "/" ++ c)]
    have hjc : joinComponents (c :: t) = "/" ++ c ++ joinComponents t := by
      show List.foldl (fun a c => a ++ "/" ++ c) ("" ++ "/" ++ c) t =
        "/" ++ c ++ joinComponents t
      rw [ih ("" ++ "/" ++ c), String.empty_append]
    rw [hjc]
    simp [String.append_assoc]

theorem joinComponents_cons (c : String) (t : List String) :
    joinComponents (c :: t) = "/" ++ c ++ joinComponents t := by
  rw [joinComponents, List.foldl_cons, join_foldl_acc]
  rw [String.empty_append]

theorem joinComponents_cons_data (c : String) (t : List String) :
    (joinComponents (c :: t)).data = '/' :: (c.data ++ (joinComponents t).data) := by
  rw [joinComponents_cons]
  simp only [String.data_append]
  rfl

theorem segs_cons_slash (X : List Char) : segs ('/' :: X) = segs X := by
  rw [segs.eq_def ('/' :: X), segs.eq_def X]
  rw [List.dropWhile_cons_of_pos (by simp)]

theorem segs_join :
    ∀ (l : List String), l ≠ [] → (∀ s ∈ l, '/' ∉ s.data) →
      (∀ s ∈ l.dropLast, s ≠ "") → segs (joinComponents l).data = l := by
  intro l
  induction l with
  | nil => intro h; exact absurd rfl h
  | cons c t ih =>
    intro _ hs hn
    rw [joinComponents_cons_data, segs_cons_slash]
    have hcslash : '/' ∉ c.data := hs c (by simp)
    cases t with
    | nil =>
      simp only [joinComponents, List.foldl_nil]
      show segs (c.data ++ "".data) = [c]
      rw [show ("" : String).data = [] from rfl, List.append_nil]
      rw [segs.eq_def]
      have hdw : c.data.dropWhile (fun x => x == '/') = c.data := by
        cases hc : c.data with
        | nil => simp
        | cons d D =>
          rw [List.dropWhile_cons, if_neg]
          intro hd
          have hde : d = '/' := by simpa using hd
          apply hcslash
          rw [hc, hde]
          simp
      rw [hdw]
      have hrest : c.data.dropWhile (fun x => x != '/') = [] := by
        rw [List.dropWhile_eq_nil_iff]
        intro x hx
        simp only [bne_iff_ne, ne_eq]
        intro he
        exact hcslash (he ▸ hx)
      rw [hrest]
      rw [dif_pos (by simp)]
      have htw : c.data.takeWhile (fun x => x != '/') = c.data := by
        rw [List.takeWhile_eq_self_iff]
        intro x hx
        simp only [bne_iff_ne, ne_eq]
        intro he
        exact hcslash (he ▸ hx)
      rw [htw]
    | cons c2 t2 =>
      have hcne : c ≠ "" := by
        apply hn
        rw [List.dropLast_cons_of_ne_nil (by simp)]
        simp
      have hcdata : c.data ≠ [] := by
        intro he
        apply hcne
        have : String.mk c.data = String.mk [] := by rw [he]
        simpa using this
      obtain ⟨d, D, hdD⟩ := List.exists_cons_of_ne_nil hcdata
      have hdne : ¬ (d == '/') = true := by
        intro hd
        have hde : d = '/' := by simpa using hd
        apply hcslash
        rw [hdD, hde]
        simp
      have hJ : (joinComponents (c2 :: t2)).data =
          '/' :: (c2.data ++ (joinComponents t2).data) := joinComponents_cons_data c2 t2
      rw [segs.eq_def]
      have hdw : (c.data ++ (joinComponents (c2 :: t2)).data).dropWhile
          (fun x => x == '/') = c.data ++ (joinComponents (c2 :: t2)).data := by
        rw [hdD, List.cons_append, List.dropWhile_cons, if_neg hdne]
      rw [hdw]
      have hallc : ∀ x ∈ c.data, (x != '/') = true := by
        intro x hx
        simp only [bne_iff_ne, ne_eq]
        intro he
        exact hcslash (he ▸ hx)
      have htw : (c.data ++ (joinComponents (c2 :: t2)).data).takeWhile
          (fun x => x != '/') = c.data := by
        rw [List.takeWhile_append_of_pos hallc, hJ]
        rw [List.takeWhile_cons, if_neg (by simp)]
        simp
      have hrest : (c.data ++ (joinComponents (c2 :: t2)).data).dropWhile
          (fun x => x != '/') = (joinComponents (c2 :: t2)).data := by
        rw [List.dropWhile_append_of_pos hallc, hJ]
        rw [List.dropWhile_cons, if_neg (by simp)]
      rw [htw, hrest]
      rw [dif_neg (by rw [hJ]; simp)]
      have htail : (joinComponents (c2 :: t2)).data.tail =
          c2.data ++ (joinComponents t2).data := by
        rw [hJ]
        rfl
      have hrec : segs (joinComponents (c2 :: t2)).data.tail = c2 :: t2 := by
        rw [htail]
        rw [show segs (c2.data ++ (joinComponents t2).data) =
            segs ('/' :: (c2.data ++ (joinComponents t2).data)) from
          (segs_cons_slash _).symm]
        rw [← hJ]
        apply ih
        · simp
        · intro s hsm
          exact hs s (by simp [hsm])
        · intro s hsm
          apply hn
          rw [List.dropLast_cons_of_ne_nil (by simp)]
          simp only [List.mem_cons]
          right
          exact hsm
      rw [hrec]

theorem joinComponents_head (l : List String) (h : l ≠ []) :
    (joinComponents l).data.head? = some '/' := by
  cases l with
  | nil => exact absurd rfl h
  | cons c t =>
    rw [joinComponents_cons_data]
    rfl

theorem segments_joinComponents (l : List String)
    (hs : ∀ s ∈ l, '/' ∉ s.data) (hn : ∀ s ∈ l.dropLast, s ≠ "") :
    segments (joinComponents l) = l := by
  cases l with
  | nil => rfl
  | cons c t =>
    rw [segments]
    rw [if_neg (by rw [joinComponents_cons_data]; simp)]
    exact segs_join (c :: t) (by simp) hs hn

theorem normalizePath_shape (p out : String) (h : normalizePath p = some out) :
    (out = "" ∨ out.data.head? = some '/') ∧
      ∀ s ∈ segments out, s ≠ "." ∧ s ≠ ".." := by
  rw [normalizePath] at h
  cases hf : (segments p).foldl normStep (some []) with
  | none =>
    rw [hf] at h
    simp at h
  | some l =>
    rw [hf] at h
    injection h with h1
    subst h1
    have hgood : ∀ s ∈ l, s ≠ "." ∧ s ≠ ".." ∧ '/' ∉ s.data :=
      foldl_normStep_good (segments p) [] l (by simp) (segments_no_slash p) hf
    have hlast : ∀ s ∈ l.dropLast, s ≠ "" :=
      foldl_normStep_last (segments p) [] l (by simp)
        (segments_dropLast_ne_empty p) hf
    constructor
    · cases hl : l with
      | nil => left; rfl
      | cons c t =>
        right
        rw [← hl]
        exact joinComponents_head l (by rw [hl]; simp)
    · rw [segments_joinComponents l (fun s hsm => (hgood s hsm).2.2) hlast]
      exact fun s hsm => ⟨(hgood s hsm).1, (hgood s hsm).2.1⟩

theorem segs_dotdot : segs "..".data = [".."] := by
  rw [segs.eq_def]
  simp +decide

theorem normalizePath_dotdot : normalizePath ".." = none := by
  rw [normalizePath, segments]
  rw [if_neg (by decide)]
  rw [segs_dotdot]
  decide

theorem segs_x_up_up : segs "x/../..".data = ["x", "..", ".."] := by
  rw [segs.eq_def]
  simp +decide
  rw [segs.eq_def]
  simp +decide
  rw [segs.eq_def]
  simp +decide

theorem normalizePath_x_up_up : normalizePath "x/../.." = none := by
  rw [normalizePath, segments]
  rw [if_neg (by decide)]
  rw [segs_x_up_up]
  decide

/-- C1: for every input, `normalizePath` either fails or returns a string
whose visited segments contain neither `.` nor `..` and which begins with
`/` unless it is empty; in particular inputs whose `..` pops past the root
(such as `..` and `x/../..`) fail. -/
theorem normalizePath_confinement :
    (∀ p out, normalizePath p = some out →
      (out = "" ∨ out.data.head? = some '/') ∧
        ∀ s ∈ segments out, s ≠ "." ∧ s ≠ "..") ∧
    normalizePath ".." = none ∧ normalizePath "x/../.." = none :=
  ⟨fun p out h => normalizePath_shape p out h, normalizePath_dotdot, normalizePath_x_up_up⟩

theorem segs_a_up_b : segs "/a/../b/".data = ["a", "..", "b", ""] := by
  rw [segs.eq_def]
  simp +decide
  rw [segs.eq_def]
  simp +decide
  rw [segs.eq_def]
  simp +decide
  rw [segs.eq_def]
  simp +decide

theorem normalizePath_a_up_b : normalizePath "/a/../b/" = some "/b/" := by
  rw [normalizePath, segments]
  rw [if_neg (by decide)]
  rw [segs_a_up_b]
  decide

theorem normalizePath_confinement_witness :
    normalizePath "/a/../b/" = some "/b/" ∧
    ("/b/" = "" ∨ "/b/".data.head? = some '/') ∧
    ∀ s ∈ segments "/b/", s ≠ "." ∧ s ≠ ".." :=
  ⟨normalizePath_a_up_b,
    (normalizePath_confinement.1 "/a/../b/" "/b/" normalizePath_a_up_b).1,
    (normalizePath_confinement.1 "/a/../b/" "/b/" normalizePath_a_up_b).2⟩

theorem segs_slash : segs "/".data = [""] := by
  rw [segs.eq_def]
  simp +decide

theorem normalizePath_slash : normalizePath "/" = some "/" := by
  rw [normalizePath, segments]
  rw [if_neg (by decide)]
  rw [segs_slash]
  decide

theorem splitPath_tests_empty :
    splitPath exclNone fsTests "tests" "" =
      { fsPath := "tests/index.map", scriptName := "", pathInfo := "", err := none } := by
  have h0 : splitPath exclNone fsTests "tests" "" =
      splitScriptPathAndPathInfo exclNone fsTests "tests" 5 := rfl
  rw [h0]
  rw [splitScriptPathAndPathInfo]
  simp +decide
  rw [sspLoop.eq_def]
  simp +decide

theorem splitPath_tests_root :
    splitPath exclNone fsTests "tests" "/" =
      { fsPath := "tests/index.map", scriptName := "", pathInfo := "/", err := none } := by
  rw [splitPath]
  simp only [show pathUnescape "/" = some "/" from rfl]
  rw [if_neg (by decide)]
  simp only [normalizePath_slash]
  have h0 : ("tests" ++ "/" : String) = "tests/" := by decide
  rw [h0]
  have h1 : ("tests" : String).length = 5 := rfl
  rw [h1]
  rw [splitScriptPathAndPathInfo]
  simp +decide
  rw [sspLoop.eq_def]
  simp +decide

/-- C10: the empty selector path is accepted: `normalizePath ""` succeeds
with the empty string (the only successful output not beginning with `/`),
and resolution of the empty path returns the document root's index file
with empty scriptName and empty pathInfo - unlike the path `/`, which
resolves to the same index file but with pathInfo `/`. -/
theorem empty_path_resolution :
    normalizePath "" = some "" ∧
    (∀ p s, normalizePath p = some s → s ≠ "" → s.data.head? = some '/') ∧
    splitPath exclNone fsTests "tests" "" =
      { fsPath := "tests/index.map", scriptName := "", pathInfo := "", err := none } ∧
    splitPath exclNone fsTests "tests" "/" =
      { fsPath := "tests/index.map", scriptName := "", pathInfo := "/", err := none } := by
  refine ⟨rfl, ?_, splitPath_tests_empty, splitPath_tests_root⟩
  intro p s h hne
  rcases (normalizePath_shape p s h).1 with he | hh
  · exact absurd he hne
  · exact hh

theorem empty_path_resolution_witness :
    normalizePath "/a/../b/" = some "/b/" ∧ "/b/" ≠ "" ∧
      ("/b/" : String).data.head? = some '/' :=
  ⟨normalizePath_a_up_b, by decide,
    empty_path_resolution.2.1 "/a/../b/" "/b/" normalizePath_a_up_b (by decide)⟩
